import Mathlib

/-!
Shallow embedding of `paste/script/pluginlib.py` (pastescript).

Python text is modelled at the character level (`List Char`) for the
manifest-file operations, so that line splitting (`str.splitlines` /
`f.readlines`) and whitespace stripping (`str.strip`) are explicit
recursive functions we can reason about.  Distribution names handled by
the resolver are modelled as `String`.

External collaborators are modelled as explicit data:
  * the OS package database (`importlib.metadata.distribution`) becomes a
    finite `Registry` (a list of `Distribution` records) with lookup by name;
  * the filesystem seen by `find_egg_info_dir` becomes an `FS` record of
    a `listdir` function (which may fail, modelling `OSError`) and an
    `isdir` predicate.
-/

/-- An entry point: group (category), name, loadable reference. -/
structure EntryPoint where
  name : String
  group : String
  value : String
deriving DecidableEq, Repr

/-- A distribution record as seen through `importlib.metadata`.
`metadataVersion` is the value of `dist.metadata.get('Metadata-Version')`
(`none` = header absent); `pasterPluginsTxt` is the result of
`dist.read_text('paster_plugins.txt')` (`none` models a
`FileNotFoundError`/`KeyError` or a `None` return); `entry_points` is
`none` when accessing `dist.entry_points` raises
`AttributeError`/`FileNotFoundError`. -/
structure Distribution where
  name : String
  metadataVersion : Option String
  pasterPluginsTxt : Option String
  entry_points : Option (List EntryPoint)
deriving DecidableEq, Repr

/-- The OS package database: the finite collection of installed
distributions. -/
abbrev Registry := List Distribution

/-- `importlib.metadata.distribution(n)`: look a distribution up by name;
`none` models `PackageNotFoundError`. -/
def distribution_ (reg : Registry) (n : String) : Option Distribution :=
  List.find? (fun d => d.name == n) reg

/-- Python truthiness of an optional string (`None` and `''` are falsy). -/
def truthy : Option String → Bool
  | some s => s ≠ ""
  | none => false

/-! ### Character-level text helpers (Python `str` operations) -/

/-- Prepend a character to the first piece of a split (the `[]` case is
unreachable because `splitOnNl` never returns an empty list of pieces). -/
def consHead (c : Char) : List (List Char) → List (List Char)
  | [] => [[c]]
  | line :: more => (c :: line) :: more

/-- Split a character sequence at newline characters; mirrors the line
splitting performed by `data.splitlines()` / `f.readlines()` (the result
always has one more piece than there are `'\n'` characters, so a trailing
newline yields a final empty piece, which every caller filters out). -/
def splitOnNl : List Char → List (List Char)
  | [] => [[]]
  | c :: rest =>
    if c = '\n' then [] :: splitOnNl rest else consHead c (splitOnNl rest)

/-- `str.strip()`: drop leading and trailing whitespace. -/
def strip (s : List Char) : List Char :=
  (((s.dropWhile Char.isWhitespace).reverse).dropWhile Char.isWhitespace).reverse

/-- `str.lower()` (character-wise, as used for the case-insensitive
comparison in `remove_plugin`). -/
def lowerL (s : List Char) : List Char := s.map Char.toLower

/-! ### Manifest Store (`add_plugin` / `remove_plugin`, pluginlib.py 8-60)

The manifest file is modelled as `Option (List Char)`: `none` when the
file `<egg_info_dir>/paster_plugins.txt` does not exist, otherwise its
full contents. -/

/-- `[l.strip() for l in f.readlines() if l.strip()]`, the read performed
by both `add_plugin` (line 18) and `remove_plugin` (line 44); reading an
absent file yields no lines (`add_plugin` line 14-15). -/
def strippedLines : Option (List Char) → List (List Char)
  | none => []
  | some content => (List.map strip (splitOnNl content)).filter (fun l => !l.isEmpty)

/-- The full-file rewrite of `add_plugin`/`remove_plugin` (lines 26-30 and
56-60): each line followed by a single `'\n'`. -/
def writeLines (lines : List (List Char)) : List Char :=
  lines.foldr (fun l acc => l ++ '\n' :: acc) []

/-- `add_plugin` (pluginlib.py 8-30): read the stripped non-blank lines,
return unchanged if `plugin_name` is already present (case-sensitive
`in`), otherwise append it and rewrite the whole file. -/
def add_plugin (file : Option (List Char)) (plugin_name : List Char) : Option (List Char) :=
  let lines := strippedLines file
  if plugin_name ∈ lines then file
  else some (writeLines (lines ++ [plugin_name]))

/-- The two `ValueError`s raised by `remove_plugin`; both carry their
diagnostic payload (the second carries the attempted name and the current
manifest lines, mirroring the `"Plugin %s not found in file %s (from: %s)"`
message). -/
inductive RemoveErr where
  | manifestNotFound
  | pluginNotInManifest (plugin_name : List Char) (lines : List (List Char))
deriving DecidableEq, Repr

/-- `remove_plugin` (pluginlib.py 32-60): fail if the file is absent;
find the first line equal to `plugin_name` up to `str.lower()` (the
`for`/`else` loop, lines 46-53); fail carrying the name and the current
lines if there is none; otherwise `lines.remove(line)` (first occurrence)
and rewrite. -/
def remove_plugin (file : Option (List Char)) (plugin_name : List Char) :
    Except RemoveErr (List Char) :=
  match file with
  | none => .error .manifestNotFound
  | some content =>
    let lines := strippedLines (some content)
    match lines.find? (fun line => lowerL line == lowerL plugin_name) with
    | none => .error (.pluginNotInManifest plugin_name lines)
    | some line => .ok (writeLines (lines.erase line))

/-! ### `parse_lines` (pluginlib.py 122-128) -/

/-- `parse_lines`: keep the stripped lines that are non-empty and do not
start with `'#'`. -/
def parse_linesC (data : List Char) : List (List Char) :=
  (List.map strip (splitOnNl data)).filter (fun l => !l.isEmpty && l.head? != some '#')

/-- `parse_lines` at the `String` level, as consumed by `resolve_plugins`. -/
def parse_lines (data : String) : List String :=
  (parse_linesC data.data).map (fun l => String.mk l)

/-! ### Metadata Directory Locator (`find_egg_info_dir`, pluginlib.py 62-77)

Paths are lists of components; `os.path.dirname` is `dropLast`, and the
`parent == dir` stop condition at the filesystem root corresponds to the
empty path. -/

/-- The filesystem as seen by `find_egg_info_dir`: `listdir` may fail
(modelling `OSError`, e.g. permission denied), `isdir` tells whether a
path is a directory. -/
structure FS where
  listdir : List String → Except Unit (List String)
  isdir : List String → Bool

/-- `find_egg_info_dir`: list the directory (returning `none` on
`OSError`), return the first child whose name ends with `'.egg-info'`
and is a directory, otherwise move to the parent, stopping with `none`
at the root. -/
def find_egg_info_dir (fs : FS) (dir : List String) : Option (List String) :=
  match fs.listdir dir with
  | .error _ => none
  | .ok filenames =>
    match filenames.find? (fun fn => fn.endsWith ".egg-info" && fs.isdir (dir ++ [fn])) with
    | some fn => some (dir ++ [fn])
    | none =>
      if h : dir = [] then none
      else find_egg_info_dir fs dir.dropLast
termination_by dir.length
decreasing_by
  simp only [List.length_dropLast]
  have hpos : 0 < dir.length := List.length_pos.mpr h
  omega

/-! ### Plugin Resolver (`resolve_plugins`, pluginlib.py 79-102) -/

/-- Errors of the resolver: the re-raised `PackageNotFoundError`
(carrying the message built at lines 86-90), or exhaustion of the
explicit fuel that makes the Python `while` loop a total function. -/
inductive ResolveErr where
  | pluginNotFound (msg : String)
  | outOfFuel
deriving DecidableEq, Repr

/-- `str(PackageNotFoundError(name))` of `importlib.metadata`, the `str(e)`
the except-branch inspects. -/
def packageNotFoundStr (plugin : String) : String :=
  "No package metadata was found for " ++ plugin

/-- The message rewriting of pluginlib.py 86-90:
`msg = '%sNot Found%s: %s (did you run python setup.py develop?)'`,
filled with `(str(e)+': ', ' for', plugin)` when `str(e) != plugin` and
with `('', '', plugin)` otherwise. -/
def pnfMessage (estr plugin : String) : String :=
  if estr ≠ plugin then
    (estr ++ ": ") ++ "Not Found" ++ " for" ++ ": " ++ plugin
      ++ " (did you run python setup.py develop?)"
  else
    "" ++ "Not Found" ++ "" ++ ": " ++ plugin
      ++ " (did you run python setup.py develop?)"

/-- The manifest entries `resolve_plugins` iterates over for one
distribution (pluginlib.py 93-101): nothing unless
`dist.metadata.get('Metadata-Version')` is truthy; then
`parse_lines(data)` for `data = dist.read_text('paster_plugins.txt')`
when that is truthy, nothing when it is falsy or the read raises
(`FileNotFoundError`/`KeyError` are caught and passed). -/
def effEntries (dist : Distribution) : List String :=
  if truthy dist.metadataVersion then
    match dist.pasterPluginsTxt with
    | some data => if data ≠ "" then parse_lines data else []
    | none => []
  else []

/-- The `while plugin_list:` loop of `resolve_plugins` (pluginlib.py
81-101), with explicit fuel.  `plugin_list.pop()` pops from the END of
the Python list, so the queue's last element is processed first;
`found.append(plugin)` happens unconditionally (line 92) before the
manifest is read, so the membership guard of line 98 tests
`found ++ [plugin]`. -/
def resolveAux (reg : Registry) : List String → Nat → List String → Except ResolveErr (List String)
  | [], _, found => .ok found
  | _ :: _, 0, _ => .error .outOfFuel
  | q₁ :: q, fuel + 1, found =>
    let plugin := (q₁ :: q).getLast (List.cons_ne_nil q₁ q)
    let rest := (q₁ :: q).dropLast
    match distribution_ reg plugin with
    | none => .error (.pluginNotFound (pnfMessage (packageNotFoundStr plugin) plugin))
    | some dist =>
        resolveAux reg
          (rest ++ (effEntries dist).filter (fun p => !((found ++ [plugin]).contains p)))
          fuel (found ++ [plugin])

/-- `get_distro` (pluginlib.py 104-105). -/
def get_distro (reg : Registry) (spec : String) : Option Distribution := distribution_ reg spec

/-- `resolve_plugins` (pluginlib.py 79-102): run the worklist loop, then
`list(map(get_distro, found))`.  Every name in `found` was successfully
looked up during the loop, so mapping the lookup over `found` never
fails; `filterMap` therefore coincides with Python's `map`. -/
def resolve_plugins (reg : Registry) (plugin_list : List String) (fuel : Nat) :
    Except ResolveErr (List Distribution) :=
  (resolveAux reg plugin_list fuel []).map (fun found => found.filterMap (distribution_ reg))

/-! ### Command Loader (`load_commands_from_plugins`, pluginlib.py 107-120)

The Python `dict` is modelled as an association list with insertion-order
keys and last-write-wins updates. -/

/-- `commands[ep.name] = ep` on a `dict` modelled as an association list:
overwrite the existing entry for the key if present, otherwise append. -/
def dictInsert (m : List (String × EntryPoint)) (k : String) (v : EntryPoint) :
    List (String × EntryPoint) :=
  if m.any (fun p => p.1 == k) then
    m.map (fun p => if p.1 == k then (k, v) else p)
  else m ++ [(k, v)]

/-- `dict` lookup. -/
def dictFind (m : List (String × EntryPoint)) (k : String) : Option EntryPoint :=
  (m.find? (fun p => p.1 == k)).map (fun p => p.2)

/-- `load_commands_from_plugins` (pluginlib.py 107-120): for each
distribution in order, if `dist.entry_points` is readable, insert every
entry point whose group is `'paste.paster_command'`, keyed by name (later
writes overwrite earlier ones); a distribution whose entry points cannot
be read is skipped. -/
def load_commands_from_plugins (plugins : List Distribution) : List (String × EntryPoint) :=
  plugins.foldl
    (fun commands dist =>
      match dist.entry_points with
      | none => commands
      | some eps =>
        eps.foldl
          (fun cmds ep =>
            if ep.group == "paste.paster_command" then dictInsert cmds ep.name ep else cmds)
          commands)
    []

/-! ### Specification-side helpers used by the theorems -/

/-- Number of occurrences of `a` in a list (explicit recursion, used to
state duplication properties). -/
def occ {α : Type} [DecidableEq α] (a : α) : List α → Nat
  | [] => 0
  | x :: xs => (if x = a then 1 else 0) + occ a xs

/-- Total number of occurrences of the name `n` across the initial list
and every registered distribution's effective manifest entries. -/
def nameOccurrences (reg : Registry) (init : List String) (n : String) : Nat :=
  occ n init + (reg.map (fun d => occ n (effEntries d))).sum

/-- Occurrences of `n` in the manifests of the distributions whose name
has not yet been resolved into `found`. -/
def unread (reg : Registry) (found : List String) (n : String) : Nat :=
  (reg.map (fun d => if d.name ∈ found then 0 else occ n (effEntries d))).sum

/-- Invariant of the resolver loop under which no duplicate can ever be
appended to `found`: `found` and the queue are duplicate-free and
disjoint, and each name has at most one occurrence left in total between
the pending queue and the manifests not yet read. -/
def ResolveInv (reg : Registry) (queue found : List String) : Prop :=
  found.Nodup ∧ queue.Nodup ∧ (∀ x ∈ queue, x ∉ found) ∧
    ∀ n, occ n queue + unread reg found n ≤ 1

/-! ### Concrete instances used by individual claims -/

/-- Two registered distributions whose manifests form a two-cycle:
`A` lists `B` and `B` lists `A`. -/
def regAB : Registry :=
  [⟨"A", some "1.0", some "B\n", none⟩, ⟨"B", some "1.0", some "A\n", none⟩]

/-- A single registered distribution `A` with no manifest. -/
def regSoloA : Registry := [⟨"A", some "1.0", none, none⟩]

/-- A chain: `A`'s manifest lists `B`, `B`'s manifest is absent. -/
def regChain : Registry :=
  [⟨"A", some "1.0", some "B\n", none⟩, ⟨"B", some "1.0", none, none⟩]

/-- `A` is registered, has a manifest listing `B`, but its metadata has
no `Metadata-Version` header; `B` is registered as well. -/
def regNoMV : Registry :=
  [⟨"A", none, some "B\n", none⟩, ⟨"B", some "1.0", none, none⟩]

/-- A filesystem on which every directory listing fails with `OSError`. -/
def fsDenied : FS := ⟨fun _ => .error (), fun _ => false⟩

/-- First-some choice on options (used to state the dictionary lookup
characterisation of the Command Loader). -/
def optOr {α : Type} : Option α → Option α → Option α
  | some a, _ => some a
  | none, b => b

/-! ## Occurrence-count lemmas -/

theorem occ_append {α : Type} [DecidableEq α] (a : α) (l m : List α) :
    occ a (l ++ m) = occ a l + occ a m := by
  induction l with
  | nil => simp [occ]
  | cons x xs ih => simp [occ, ih]; omega

theorem occ_eq_zero_iff {α : Type} [DecidableEq α] (a : α) (l : List α) :
    occ a l = 0 ↔ a ∉ l := by
  induction l with
  | nil => simp [occ]
  | cons x xs ih =>
      by_cases hx : x = a
      · subst hx; simp [occ]
      · simp [occ, hx, ih, Ne.symm hx]

theorem one_le_occ_of_mem {α : Type} [DecidableEq α] {a : α} {l : List α} (h : a ∈ l) :
    1 ≤ occ a l := by
  by_contra hlt
  have h0 : occ a l = 0 := by omega
  exact ((occ_eq_zero_iff a l).mp h0) h

theorem occ_le_of_sublist {α : Type} [DecidableEq α] {l m : List α} (h : l.Sublist m) (a : α) :
    occ a l ≤ occ a m := by
  induction h with
  | slnil => exact Nat.le_refl _
  | cons x _ ih => simp only [occ]; omega
  | cons₂ x _ ih => simp only [occ]; omega

theorem nodup_of_occ_le_one {α : Type} [DecidableEq α] {l : List α}
    (h : ∀ a, occ a l ≤ 1) : l.Nodup := by
  induction l with
  | nil => simp
  | cons x xs ih =>
      rw [List.nodup_cons]
      constructor
      · have hx := h x
        simp [occ] at hx
        exact (occ_eq_zero_iff x xs).mp (by omega)
      · exact ih (fun a => Nat.le_trans (occ_le_of_sublist (List.sublist_cons_self x xs) a) (h a))

/-! ## Resolver unfolding equations -/

theorem resolveAux_nil (reg : Registry) (fuel : Nat) (found : List String) :
    resolveAux reg [] fuel found = .ok found := by
  cases fuel <;> rfl

theorem resolveAux_step (reg : Registry) (rest : List String) (plugin : String)
    (fuel : Nat) (found : List String) :
    resolveAux reg (rest ++ [plugin]) (fuel + 1) found =
      match distribution_ reg plugin with
      | none => .error (.pluginNotFound (pnfMessage (packageNotFoundStr plugin) plugin))
      | some dist =>
          resolveAux reg
            (rest ++ (effEntries dist).filter (fun p => !((found ++ [plugin]).contains p)))
            fuel (found ++ [plugin]) := by
  cases rest with
  | nil => rfl
  | cons r rs =>
      have hlast : (r :: (rs ++ [plugin])).getLast (List.cons_ne_nil _ _) = plugin := by
        have h2 : (r :: (rs ++ [plugin])).getLast? = some plugin := by
          rw [← List.cons_append]
          exact List.getLast?_concat _
        rwa [List.getLast?_eq_getLast _ (List.cons_ne_nil _ _), Option.some_inj] at h2
      have hdrop : (r :: (rs ++ [plugin])).dropLast = r :: rs := by
        rw [← List.cons_append]
        exact List.dropLast_concat
      show resolveAux reg (r :: (rs ++ [plugin])) (fuel + 1) found = _
      simp only [resolveAux, hlast, hdrop]

/-! ## C2: the two-cycle resolves to exactly the two distributions -/

/-- C2: `resolve_plugins(["A"])`, where registered distribution `A`'s
manifest lists `B` and `B`'s manifest lists `A`, terminates (any fuel
beyond the two loop iterations gives the same successful result) and
returns exactly the two distributions `A`, `B`, with no duplicate name. -/
theorem c2_two_cycle_terminates : ∀ f : Nat,
    resolveAux regAB ["A"] (f + 2) [] = .ok ["A", "B"] ∧
    resolve_plugins regAB ["A"] (f + 2) =
      .ok [⟨"A", some "1.0", some "B\n", none⟩, ⟨"B", some "1.0", some "A\n", none⟩] ∧
    (["A", "B"] : List String).Nodup := by
  intro f
  have h1 : resolveAux regAB ["A"] (f + 2) [] = resolveAux regAB ["B"] (f + 1) ["A"] := by rfl
  have h2 : resolveAux regAB ["B"] (f + 1) ["A"] = resolveAux regAB [] f ["A", "B"] := by rfl
  have hok : resolveAux regAB ["A"] (f + 2) [] = .ok ["A", "B"] := by
    rw [h1, h2, resolveAux_nil]
  refine ⟨hok, ?_, by decide⟩
  unfold resolve_plugins
  rw [hok]
  rfl

/-! ## C3: a missing plugin raises `PluginNotFound` carrying the name -/

/-- C3: when the next name popped by the resolver is absent from the
registry, `resolve_plugins` fails immediately with the re-raised
`PackageNotFoundError`; the message carries the requested name and the
"did you run python setup.py develop?" installation hint, and the error
is the final result (propagated, no retry). -/
theorem c3_missing_plugin_raises (reg : Registry) (rest found : List String)
    (plugin : String) (fuel : Nat) (habs : distribution_ reg plugin = none) :
    resolveAux reg (rest ++ [plugin]) (fuel + 1) found =
      .error (.pluginNotFound (pnfMessage (packageNotFoundStr plugin) plugin)) ∧
    (∃ s t : String, pnfMessage (packageNotFoundStr plugin) plugin = s ++ plugin ++ t) ∧
    (∃ s : String, pnfMessage (packageNotFoundStr plugin) plugin =
        s ++ " (did you run python setup.py develop?)") := by
  have hne : packageNotFoundStr plugin ≠ plugin := by
    intro h
    have hlen := congrArg String.length h
    simp only [packageNotFoundStr, String.length_append] at hlen
    have h34 : ("No package metadata was found for " : String).length = 34 := rfl
    rw [h34] at hlen
    omega
  refine ⟨?_, ?_, ?_⟩
  · rw [resolveAux_step, habs]
  · refine ⟨packageNotFoundStr plugin ++ ": " ++ "Not Found" ++ " for" ++ ": ",
      " (did you run python setup.py develop?)", ?_⟩
    simp only [pnfMessage, if_pos hne, String.append_assoc]
  · refine ⟨packageNotFoundStr plugin ++ ": " ++ "Not Found" ++ " for" ++ ": " ++ plugin, ?_⟩
    simp only [pnfMessage, if_pos hne, String.append_assoc]

/-- Witness for C3: `resolve(["missing"])` on an empty registry. -/
theorem c3_missing_plugin_raises_witness :
    resolveAux ([] : Registry) ["missing"] 1 [] =
      .error (.pluginNotFound (pnfMessage (packageNotFoundStr "missing") "missing")) :=
  (c3_missing_plugin_raises [] [] [] "missing" 0 rfl).1

/-! ## C10: a distribution without `Metadata-Version` is added but its
manifest is never consulted -/

/-- C10: when the popped name resolves to a distribution whose metadata
has no truthy `Metadata-Version` field, the loop step appends the
distribution's name to the result and enqueues nothing (the manifest is
not consulted); concretely, resolving `["A"]` where registered `A` has a
manifest listing registered `B` but no `Metadata-Version` yields only
`A`, and `B` is never resolved. -/
theorem c10_no_metadata_version_skips_manifest :
    (∀ (reg : Registry) (rest found : List String) (plugin : String)
        (dist : Distribution) (fuel : Nat),
        distribution_ reg plugin = some dist →
        truthy dist.metadataVersion = false →
        resolveAux reg (rest ++ [plugin]) (fuel + 1) found =
          resolveAux reg rest fuel (found ++ [plugin])) ∧
    resolveAux regNoMV ["A"] 5 [] = .ok ["A"] ∧
    resolve_plugins regNoMV ["A"] 5 = .ok [⟨"A", none, some "B\n", none⟩] := by
  refine ⟨?_, by rfl, by rfl⟩
  intro reg rest found plugin dist fuel hdist hmv
  rw [resolveAux_step, hdist]
  simp [effEntries, hmv]

/-- Witness for C10: one loop step on the concrete registry. -/
theorem c10_no_metadata_version_skips_manifest_witness :
    resolveAux regNoMV ["A"] 1 [] = resolveAux regNoMV [] 0 ["A"] :=
  c10_no_metadata_version_skips_manifest.1 regNoMV [] [] "A"
    ⟨"A", none, some "B\n", none⟩ 0 rfl rfl

/-! ## C1: duplicate names in the Resolution Result -/

/-- C1 counterexample: the resolver performs no found-membership check on
popped names and no pending-queue check, so an initial list that contains
the same registered name twice produces a Resolution Result in which that
name (and its distribution) appears twice. -/
theorem c1_counterexample :
    resolveAux regSoloA ["A", "A"] 5 [] = .ok ["A", "A"] ∧
    ¬ (["A", "A"] : List String).Nodup ∧
    resolve_plugins regSoloA ["A", "A"] 5 =
      .ok [⟨"A", some "1.0", none, none⟩, ⟨"A", some "1.0", none, none⟩] :=
  ⟨by rfl, by decide, by rfl⟩

/-! ## C7: the locator tolerates listing errors and a matchless walk -/

/-- C7: `find_egg_info_dir` never throws: an `OSError` on a directory
listing makes it return `none`, and a walk on which no successfully
listed ancestor (up to and including the root, where `parent == dir`)
has an immediate child directory ending in `.egg-info` also returns
`none` rather than an error. -/
theorem c7_find_egg_info_dir_tolerance :
    (∀ (fs : FS) (dir : List String), fs.listdir dir = .error () →
        find_egg_info_dir fs dir = none) ∧
    (∀ (fs : FS) (dir : List String),
        (∀ p fns, p <+: dir → fs.listdir p = .ok fns →
          ∀ fn ∈ fns, ¬(fn.endsWith ".egg-info" = true ∧ fs.isdir (p ++ [fn]) = true)) →
        find_egg_info_dir fs dir = none) := by
  constructor
  · intro fs dir h
    unfold find_egg_info_dir
    rw [h]
  · intro fs dir
    induction dir using List.reverseRecOn with
    | nil =>
        intro h
        unfold find_egg_info_dir
        cases hls : fs.listdir [] with
        | error e => rfl
        | ok fns =>
            have hfind :
                fns.find? (fun fn => fn.endsWith ".egg-info" && fs.isdir [fn]) = none := by
              rw [List.find?_eq_none]
              intro fn hfn hb
              rw [Bool.and_eq_true] at hb
              exact h [] fns ⟨[], rfl⟩ hls fn hfn ⟨hb.1, hb.2⟩
            simp [hfind]
    | append_singleton ds d ih =>
        intro h
        unfold find_egg_info_dir
        cases hls : fs.listdir (ds ++ [d]) with
        | error e => rfl
        | ok fns =>
            have hfind :
                fns.find?
                  (fun fn => fn.endsWith ".egg-info" && fs.isdir ((ds ++ [d]) ++ [fn])) = none := by
              rw [List.find?_eq_none]
              intro fn hfn hb
              rw [Bool.and_eq_true] at hb
              exact h (ds ++ [d]) fns ⟨[], List.append_nil _⟩ hls fn hfn ⟨hb.1, hb.2⟩
            have hne : ds ++ [d] ≠ [] := by simp
            simp only [hfind]
            rw [dif_neg hne, List.dropLast_concat]
            apply ih
            intro p fns' hp hls' fn hfn
            apply h p fns' ?_ hls' fn hfn
            obtain ⟨t, ht⟩ := hp
            exact ⟨t ++ [d], by rw [← List.append_assoc, ht]⟩

/-- Witness for C7: a filesystem on which every listing is denied. -/
theorem c7_find_egg_info_dir_tolerance_witness :
    find_egg_info_dir fsDenied ["home", "user"] = none :=
  c7_find_egg_info_dir_tolerance.1 fsDenied ["home", "user"] rfl

/-! ## C9: the Command Loader keeps exactly the command-group entry
points, later distributions winning on name collision -/

theorem optOr_none_right {α : Type} (x : Option α) : optOr x none = x := by
  cases x <;> rfl

theorem getLast?_append_optOr {α : Type} (A B : List α) :
    (A ++ B).getLast? = optOr B.getLast? A.getLast? := by
  induction B using List.reverseRecOn with
  | nil => simp [optOr]
  | append_singleton bs b ih =>
      rw [← List.append_assoc, List.getLast?_concat, List.getLast?_concat]
      rfl

theorem optOr_assoc {α : Type} (a b c : Option α) :
    optOr (optOr a b) c = optOr a (optOr b c) := by
  cases a <;> cases b <;> rfl

theorem getLast?_cons_optOr {α : Type} (a : α) (l : List α) :
    (a :: l).getLast? = optOr l.getLast? (some a) := by
  have h := getLast?_append_optOr [a] l
  simpa using h

theorem dictFind_cons (p : String × EntryPoint) (ps : List (String × EntryPoint)) (k' : String) :
    dictFind (p :: ps) k' = if p.1 = k' then some p.2 else dictFind ps k' := by
  by_cases h : p.1 = k'
  · simp only [dictFind]
    rw [List.find?_cons_of_pos _ (by simp [h])]
    simp [h]
  · simp only [dictFind]
    rw [List.find?_cons_of_neg _ (by simp [h])]
    simp [h]

theorem dictFind_overwrite (k : String) (v : EntryPoint) (m : List (String × EntryPoint))
    (k' : String) :
    dictFind (m.map (fun p => if p.1 == k then (k, v) else p)) k' =
      if k' = k then (if m.any (fun p => p.1 == k) then some v else none)
      else dictFind m k' := by
  induction m with
  | nil => simp [dictFind]
  | cons p ps ih =>
      simp only [List.map_cons, List.any_cons, beq_iff_eq] at ih ⊢
      by_cases hpk : p.1 = k
      · by_cases hk : k' = k
        · subst hk
          simp [dictFind_cons, hpk, ih]
        · simp [dictFind_cons, hpk, ih, hk, Ne.symm hk]
      · by_cases hk : k' = k
        · subst hk
          have hb : (p.1 == k') = false := by simp [hpk]
          by_cases hany : (ps.any (fun q => q.1 == k')) = true <;>
            simp [dictFind_cons, hpk, ih, hb, hany]
        · simp [dictFind_cons, hpk, ih, hk]

theorem dictFind_append (m₁ m₂ : List (String × EntryPoint)) (k' : String) :
    dictFind (m₁ ++ m₂) k' = optOr (dictFind m₁ k') (dictFind m₂ k') := by
  induction m₁ with
  | nil => simp [dictFind, optOr]
  | cons p ps ih =>
      by_cases h : p.1 = k' <;>
        simp [List.cons_append, dictFind_cons, ih, h, optOr]

theorem dictFind_dictInsert (m : List (String × EntryPoint)) (k k' : String) (v : EntryPoint) :
    dictFind (dictInsert m k v) k' = if k' = k then some v else dictFind m k' := by
  by_cases hany : (m.any (fun p => p.1 == k)) = true
  · simp only [dictInsert, if_pos hany]
    rw [dictFind_overwrite]
    by_cases hk : k' = k
    · simp [hk, hany]
    · simp [hk]
  · simp only [dictInsert, if_neg hany]
    rw [dictFind_append]
    by_cases hk : k' = k
    · subst hk
      have hnone : dictFind m k' = none := by
        simp only [dictFind]
        rw [List.find?_eq_none.mpr]
        · rfl
        · intro p hp hbp
          exact hany (List.any_eq_true.mpr ⟨p, hp, hbp⟩)
      rw [hnone]
      simp [dictFind_cons, optOr]
    · have hlast : dictFind [(k, v)] k' = none := by
        simp [dictFind_cons, dictFind, Ne.symm hk]
      rw [hlast, optOr_none_right, if_neg hk]

theorem load_commands_inner (eps : List EntryPoint) (acc : List (String × EntryPoint))
    (n : String) :
    dictFind (eps.foldl (fun cmds ep =>
        if ep.group == "paste.paster_command" then dictInsert cmds ep.name ep else cmds) acc) n =
      optOr ((eps.filter (fun ep => ep.group == "paste.paster_command" && ep.name == n)).getLast?)
        (dictFind acc n) := by
  induction eps generalizing acc with
  | nil => simp [optOr]
  | cons ep eps ih =>
      simp only [List.foldl_cons, List.filter_cons]
      by_cases hg : (ep.group == "paste.paster_command") = true
      · by_cases hn : (ep.name == n) = true
        · have hname : ep.name = n := by simpa using hn
          rw [if_pos hg, ih, if_pos (by simp [hg, hn])]
          rw [dictFind_dictInsert, if_pos hname.symm, getLast?_cons_optOr, optOr_assoc]
          rfl
        · have hname : ¬(n = ep.name) := by
            intro h
            exact (by simpa using hn : ¬(ep.name = n)) h.symm
          rw [if_pos hg, ih, dictFind_dictInsert, if_neg hname,
            if_neg (by simp [hn])]
      · rw [if_neg hg, ih, if_neg (by simp [hg])]

theorem load_commands_outer (ds : List Distribution) (acc : List (String × EntryPoint))
    (n : String) :
    dictFind (ds.foldl (fun commands dist =>
        match dist.entry_points with
        | none => commands
        | some eps =>
          eps.foldl (fun cmds ep =>
            if ep.group == "paste.paster_command" then dictInsert cmds ep.name ep else cmds)
            commands) acc) n =
      optOr (((ds.map (fun d => (d.entry_points.getD []).filter
          (fun ep => ep.group == "paste.paster_command" && ep.name == n))).flatten).getLast?)
        (dictFind acc n) := by
  induction ds generalizing acc with
  | nil => simp [optOr]
  | cons d ds ih =>
      cases hep : d.entry_points with
      | none =>
          simp only [List.foldl_cons, hep, List.map_cons, List.flatten_cons]
          rw [ih]
          simp
      | some eps =>
          simp only [List.foldl_cons, hep, List.map_cons, List.flatten_cons, Option.getD_some]
          rw [ih, load_commands_inner, getLast?_append_optOr, optOr_assoc]

/-- C9: the mapping built by `load_commands_from_plugins` associates a
name `n` with the LAST entry point, in Resolution Result order, whose
group is `'paste.paster_command'` and whose name is `n`; in particular
the mapping contains exactly the command-group entry points (lookup is
`none` iff no distribution declares a matching one), later distributions
overwrite earlier ones on collision, and a distribution whose
`entry_points` cannot be read (modelled `none`) contributes nothing
without failing the call. -/
theorem c9_load_commands_last_wins (plugins : List Distribution) (n : String) :
    dictFind (load_commands_from_plugins plugins) n =
      ((plugins.map (fun d => (d.entry_points.getD []).filter
          (fun ep => ep.group == "paste.paster_command" && ep.name == n))).flatten).getLast? := by
  unfold load_commands_from_plugins
  rw [load_commands_outer]
  simp [dictFind, optOr_none_right]

/-! ## Manifest Store: text round-trip lemmas and claims C4, C5, C6, C8 -/

theorem consHead_ne_nil (c : Char) (l : List (List Char)) : consHead c l ≠ [] := by
  cases l <;> simp [consHead]

theorem splitOnNl_ne_nil (s : List Char) : splitOnNl s ≠ [] := by
  induction s with
  | nil => simp [splitOnNl]
  | cons c rest ih =>
      by_cases hc : c = '\n' <;> simp [splitOnNl, hc, consHead_ne_nil]

theorem noNl_of_mem_splitOnNl (s : List Char) :
    ∀ l ∈ splitOnNl s, '\n' ∉ l := by
  induction s with
  | nil =>
      intro l hl
      simp [splitOnNl] at hl
      simp [hl]
  | cons c rest ih =>
      intro l hl
      simp only [splitOnNl] at hl
      by_cases hc : c = '\n'
      · rw [if_pos hc] at hl
        rcases List.mem_cons.mp hl with rfl | hl2
        · simp
        · exact ih l hl2
      · rw [if_neg hc] at hl
        cases h : splitOnNl rest with
        | nil => exact absurd h (splitOnNl_ne_nil rest)
        | cons line more =>
            rw [h] at hl
            simp only [consHead] at hl
            rcases List.mem_cons.mp hl with rfl | hl2
            · intro hmem
              rcases List.mem_cons.mp hmem with hcc | hline
              · exact hc hcc.symm
              · exact ih line (h ▸ List.mem_cons_self line more) hline
            · exact ih l (h ▸ List.mem_cons.mpr (Or.inr hl2))

theorem splitOnNl_append (l : List Char) (s : List Char) (hnl : '\n' ∉ l) :
    splitOnNl (l ++ '\n' :: s) = l :: splitOnNl s := by
  induction l with
  | nil => simp [splitOnNl]
  | cons c l ih =>
      have hc : ¬(c = '\n') := by
        intro hc
        exact hnl (hc ▸ List.mem_cons_self c l)
      have hl : '\n' ∉ l := fun hm => hnl (List.mem_cons.mpr (Or.inr hm))
      simp only [List.cons_append, splitOnNl, if_neg hc, List.append_eq]
      rw [ih hl]
      simp [consHead]

theorem splitOnNl_writeLines (ls : List (List Char)) (h : ∀ l ∈ ls, '\n' ∉ l) :
    splitOnNl (writeLines ls) = ls ++ [[]] := by
  induction ls with
  | nil => rfl
  | cons l ls ih =>
      have hw : writeLines (l :: ls) = l ++ '\n' :: writeLines ls := rfl
      rw [hw, splitOnNl_append l _ (h l (List.mem_cons_self l ls)),
        ih (fun x hx => h x (List.mem_cons.mpr (Or.inr hx)))]
      rfl

theorem dropWhile_idem (p : Char → Bool) (l : List Char) :
    (l.dropWhile p).dropWhile p = l.dropWhile p := by
  induction l with
  | nil => rfl
  | cons c t ih =>
      by_cases hc : p c = true
      · simp [List.dropWhile_cons, hc, ih]
      · simp [List.dropWhile_cons, hc]

theorem head_dropWhile_false (p : Char → Bool) (l : List Char) (c : Char) (t : List Char)
    (h : l.dropWhile p = c :: t) : p c = false := by
  induction l with
  | nil => simp at h
  | cons a l ih =>
      by_cases ha : p a = true
      · rw [List.dropWhile_cons, if_pos ha] at h
        exact ih h
      · rw [List.dropWhile_cons, if_neg ha] at h
        cases h
        simpa using ha

theorem reverse_strip (s : List Char) :
    (strip s).reverse = (s.dropWhile Char.isWhitespace).reverse.dropWhile Char.isWhitespace := by
  simp [strip]

theorem strip_head_false (s : List Char) (c : Char) (t : List Char)
    (h : strip s = c :: t) : Char.isWhitespace c = false := by
  obtain ⟨u, hu⟩ : ∃ u, strip s ++ u = s.dropWhile Char.isWhitespace := by
    obtain ⟨v, hv⟩ :=
      List.dropWhile_suffix (l := (s.dropWhile Char.isWhitespace).reverse) Char.isWhitespace
    refine ⟨v.reverse, ?_⟩
    have h2 := congrArg List.reverse hv
    simpa [strip] using h2
  have hd : s.dropWhile Char.isWhitespace = c :: (t ++ u) := by
    rw [← hu, h]
    simp
  exact head_dropWhile_false _ s c (t ++ u) hd

theorem dropWhile_strip (s : List Char) :
    (strip s).dropWhile Char.isWhitespace = strip s := by
  cases h : strip s with
  | nil => rfl
  | cons c t =>
      rw [List.dropWhile_cons, if_neg (by simp [strip_head_false s c t h])]

theorem strip_idem (s : List Char) : strip (strip s) = strip s := by
  calc strip (strip s)
      = (((strip s).dropWhile Char.isWhitespace).reverse.dropWhile Char.isWhitespace).reverse :=
        rfl
    _ = ((strip s).reverse.dropWhile Char.isWhitespace).reverse := by rw [dropWhile_strip]
    _ = (((s.dropWhile Char.isWhitespace).reverse.dropWhile
          Char.isWhitespace).dropWhile Char.isWhitespace).reverse := by rw [reverse_strip]
    _ = ((s.dropWhile Char.isWhitespace).reverse.dropWhile Char.isWhitespace).reverse := by
        rw [dropWhile_idem]
    _ = strip s := rfl

theorem mem_of_mem_strip {c : Char} {s : List Char} (h : c ∈ strip s) : c ∈ s := by
  have h1 : c ∈ (s.dropWhile Char.isWhitespace).reverse.dropWhile Char.isWhitespace := by
    simpa [strip] using h
  have h2 : c ∈ (s.dropWhile Char.isWhitespace).reverse :=
    (List.dropWhile_suffix _).sublist.mem h1
  have h3 : c ∈ s.dropWhile Char.isWhitespace := by simpa using h2
  exact (List.dropWhile_suffix _).sublist.mem h3

theorem noNl_strip {s : List Char} (h : '\n' ∉ s) : '\n' ∉ strip s :=
  fun hm => h (mem_of_mem_strip hm)

theorem strippedLines_wf (file : Option (List Char)) :
    ∀ l ∈ strippedLines file, l ≠ [] ∧ strip l = l ∧ '\n' ∉ l := by
  cases file with
  | none => simp [strippedLines]
  | some content =>
      intro l hl
      simp only [strippedLines, List.mem_filter, List.mem_map] at hl
      obtain ⟨⟨l₀, hl₀, rfl⟩, hne⟩ := hl
      exact ⟨by simpa using hne, strip_idem l₀,
        noNl_strip (noNl_of_mem_splitOnNl content l₀ hl₀)⟩

theorem map_strip_self (ls : List (List Char)) (h : ∀ l ∈ ls, strip l = l) :
    ls.map strip = ls := by
  induction ls with
  | nil => rfl
  | cons l ls ih =>
      simp [h l (List.mem_cons_self l ls), ih (fun x hx => h x (List.mem_cons.mpr (Or.inr hx)))]

theorem strippedLines_writeLines (ls : List (List Char))
    (h : ∀ l ∈ ls, l ≠ [] ∧ strip l = l ∧ '\n' ∉ l) :
    strippedLines (some (writeLines ls)) = ls := by
  simp only [strippedLines]
  rw [splitOnNl_writeLines ls (fun l hl => (h l hl).2.2), List.map_append,
    map_strip_self ls (fun l hl => (h l hl).2.1), List.filter_append]
  have h1 : ls.filter (fun l => !l.isEmpty) = ls :=
    List.filter_eq_self.mpr (fun a ha => by simp [(h a ha).1])
  simp [h1, strip]

theorem parse_linesC_writeLines (ls : List (List Char))
    (h : ∀ l ∈ ls, l ≠ [] ∧ strip l = l ∧ '\n' ∉ l) :
    parse_linesC (writeLines ls) = ls.filter (fun l => l.head? != some '#') := by
  simp only [parse_linesC]
  rw [splitOnNl_writeLines ls (fun l hl => (h l hl).2.2), List.map_append,
    map_strip_self ls (fun l hl => (h l hl).2.1), List.filter_append]
  have h1 : ls.filter (fun l => !l.isEmpty && l.head? != some '#') =
      ls.filter (fun l => l.head? != some '#') :=
    List.filter_congr (fun a ha => by
      have hne := (h a ha).1
      cases a with
      | nil => exact absurd rfl hne
      | cons c t => rfl)
  simp [h1, strip]

theorem parse_linesC_eq_filter (content : List Char) :
    parse_linesC content =
      (strippedLines (some content)).filter (fun l => l.head? != some '#') := by
  simp only [parse_linesC, strippedLines, List.filter_filter]
  exact List.filter_congr (fun a _ => Bool.and_comm _ _)

/-- C4 (amended): for a plugin name that is nonempty, contains no
newline and carries no surrounding whitespace, and a manifest that does
not already list it twice, a second `add_plugin` of the same name is a
no-op (case-sensitive exact match) and the manifest's stripped lines
contain the name exactly once. -/
theorem c4_add_plugin_idempotent (file : Option (List Char)) (x : List Char)
    (hx0 : x ≠ []) (hx1 : strip x = x) (hx2 : '\n' ∉ x)
    (hocc : occ x (strippedLines file) ≤ 1) :
    add_plugin (add_plugin file x) x = add_plugin file x ∧
    occ x (strippedLines (add_plugin (add_plugin file x) x)) = 1 := by
  by_cases hmem : x ∈ strippedLines file
  · have h1 : add_plugin file x = file := by simp [add_plugin, hmem]
    constructor
    · rw [h1, h1]
    · rw [h1, h1]
      have h2 := one_le_occ_of_mem hmem
      omega
  · have h1 : add_plugin file x = some (writeLines (strippedLines file ++ [x])) := by
      simp [add_plugin, hmem]
    have hwf : ∀ l ∈ strippedLines file ++ [x], l ≠ [] ∧ strip l = l ∧ '\n' ∉ l := by
      intro l hl
      rcases List.mem_append.mp hl with h | h
      · exact strippedLines_wf file l h
      · simp at h
        subst h
        exact ⟨hx0, hx1, hx2⟩
    have hround : strippedLines (add_plugin file x) = strippedLines file ++ [x] := by
      rw [h1]
      exact strippedLines_writeLines _ hwf
    have hmem2 : x ∈ strippedLines (some (writeLines (strippedLines file ++ [x]))) := by
      rw [strippedLines_writeLines _ hwf]
      exact List.mem_append.mpr (Or.inr (List.mem_cons_self x []))
    have h2 : add_plugin (add_plugin file x) x = add_plugin file x := by
      rw [h1]
      simp [add_plugin, hmem2]
    refine ⟨h2, ?_⟩
    rw [h2, hround, occ_append]
    have hocc0 : occ x (strippedLines file) = 0 := (occ_eq_zero_iff _ _).mpr hmem
    simp [hocc0, occ]

/-- C4 counterexample: for the name `" x "` (surrounding whitespace) the
second `add_plugin` call is NOT a no-op — the rewrite stores the stripped
line `"x"` while the membership test compares the unstripped name — and
after two calls the manifest's stripped lines contain the name twice. -/
theorem c4_counterexample :
    add_plugin (add_plugin none (" x ".data)) (" x ".data) ≠ add_plugin none (" x ".data) ∧
    occ ("x".data) (strippedLines (add_plugin (add_plugin none (" x ".data)) (" x ".data))) = 2 :=
  ⟨by decide, by decide⟩

/-- Witness for C4 (amended) at the empty manifest and name `"x"`. -/
theorem c4_witness :
    add_plugin (add_plugin none ("x".data)) ("x".data) = add_plugin none ("x".data) ∧
    occ ("x".data) (strippedLines (add_plugin (add_plugin none ("x".data)) ("x".data))) = 1 :=
  c4_add_plugin_idempotent none ("x".data) (by decide) (by decide) (by decide) (by decide)

/-- C8 (amended): an `add_plugin` rewrite drops blank lines and
whitespace-trims the rest but PRESERVES comment lines (they survive in
the file's stripped lines); reading back through `parse_lines`
reproduces exactly the original non-comment, non-blank lines in order,
followed by the added name. -/
theorem c8_add_roundtrip (content x : List Char)
    (hx0 : x ≠ []) (hx1 : strip x = x) (hx2 : '\n' ∉ x) (hxc : x.head? ≠ some '#')
    (hmem : x ∉ strippedLines (some content)) :
    add_plugin (some content) x = some (writeLines (strippedLines (some content) ++ [x])) ∧
    strippedLines (add_plugin (some content) x) = strippedLines (some content) ++ [x] ∧
    parse_linesC (writeLines (strippedLines (some content) ++ [x])) =
      parse_linesC content ++ [x] := by
  have h1 : add_plugin (some content) x =
      some (writeLines (strippedLines (some content) ++ [x])) := by
    simp [add_plugin, hmem]
  have hwf : ∀ l ∈ strippedLines (some content) ++ [x], l ≠ [] ∧ strip l = l ∧ '\n' ∉ l := by
    intro l hl
    rcases List.mem_append.mp hl with h | h
    · exact strippedLines_wf _ l h
    · simp at h
      subst h
      exact ⟨hx0, hx1, hx2⟩
  refine ⟨h1, by rw [h1]; exact strippedLines_writeLines _ hwf, ?_⟩
  rw [parse_linesC_writeLines _ hwf, List.filter_append, parse_linesC_eq_filter]
  have hx : ([x].filter (fun l => l.head? != some '#')) = [x] := by
    simp [hxc]
  rw [hx]

/-- C8 counterexample: adding `"b"` to a manifest holding a comment line
rewrites the file with the comment still on disk, contradicting the
claim that the file contains no comment lines after a mutating write. -/
theorem c8_counterexample :
    add_plugin (some ("# note\na".data)) ("b".data) = some ("# note\na\nb\n".data) ∧
    (strippedLines (add_plugin (some ("# note\na".data)) ("b".data))).any
        (fun l => l.head? == some '#') = true :=
  ⟨by decide, by decide⟩

/-- C6: `remove_plugin` fails with `ManifestNotFound` when the manifest
file does not exist, and with `PluginNotInManifest` — carrying the
attempted name and the current manifest lines — when no stripped line
equals the requested name case-insensitively; both errors are the
returned result (propagated). -/
theorem c6_remove_plugin_errors :
    (∀ name : List Char, remove_plugin none name = .error .manifestNotFound) ∧
    (∀ content name : List Char,
      (∀ l ∈ strippedLines (some content), lowerL l ≠ lowerL name) →
      remove_plugin (some content) name =
        .error (.pluginNotInManifest name (strippedLines (some content)))) := by
  constructor
  · intro name
    rfl
  · intro content name h
    have hfind : (strippedLines (some content)).find?
        (fun l => lowerL l == lowerL name) = none :=
      List.find?_eq_none.mpr (fun l hl hb => h l hl (by simpa using hb))
    simp only [remove_plugin]
    rw [hfind]

/-- Witness for C6 on a one-line manifest lacking the name. -/
theorem c6_remove_plugin_errors_witness :
    remove_plugin (some ("a".data)) ("b".data) =
      .error (.pluginNotInManifest ("b".data) (strippedLines (some ("a".data)))) :=
  c6_remove_plugin_errors.2 ("a".data) ("b".data) (by decide)

theorem find?_decomp {α : Type} (p : α → Bool) (l : List α) (a : α)
    (h : l.find? p = some a) :
    ∃ pre post, l = pre ++ a :: post ∧ (∀ x ∈ pre, p x = false) ∧ p a = true := by
  induction l with
  | nil => simp at h
  | cons b bs ih =>
      by_cases hb : p b = true
      · rw [List.find?_cons_of_pos _ hb] at h
        obtain rfl : b = a := by injection h
        exact ⟨[], bs, rfl, by simp, hb⟩
      · rw [List.find?_cons_of_neg _ (by simpa using hb)] at h
        obtain ⟨pre, post, rfl, hpre, hpa⟩ := ih h
        refine ⟨b :: pre, post, rfl, ?_, hpa⟩
        intro x hx
        rcases List.mem_cons.mp hx with rfl | hx2
        · exact Bool.not_eq_true _ ▸ (by simpa using hb)
        · exact hpre x hx2

/-- C5 (amended): when the manifest's stripped lines contain exactly one
case-insensitive match of the requested name, `remove_plugin` succeeds,
removes precisely that first matching line (everything before it does
not match), and a subsequent `parse_lines` read of the rewritten file
contains no case-variant of the name. -/
theorem c5_remove_first_ci_match (content name : List Char)
    (huniq : ((strippedLines (some content)).filter
        (fun l => lowerL l == lowerL name)).length = 1) :
    ∃ pre post l₀,
      strippedLines (some content) = pre ++ l₀ :: post ∧
      (∀ l ∈ pre, lowerL l ≠ lowerL name) ∧
      lowerL l₀ = lowerL name ∧
      remove_plugin (some content) name = .ok (writeLines (pre ++ post)) ∧
      strippedLines (some (writeLines (pre ++ post))) = pre ++ post ∧
      (∀ l ∈ parse_linesC (writeLines (pre ++ post)), lowerL l ≠ lowerL name) := by
  cases hfind : (strippedLines (some content)).find? (fun l => lowerL l == lowerL name) with
  | none =>
      exfalso
      have hnil : (strippedLines (some content)).filter (fun l => lowerL l == lowerL name) = [] :=
        List.filter_eq_nil_iff.mpr (fun a ha hba => (List.find?_eq_none.mp hfind a ha) hba)
      rw [hnil] at huniq
      simp at huniq
  | some l₀ =>
      obtain ⟨pre, post, hdecomp, hpre, hl₀⟩ := find?_decomp _ _ _ hfind
      have hpre' : ∀ l ∈ pre, lowerL l ≠ lowerL name := by
        intro l hl hlow
        have := hpre l hl
        rw [hlow] at this
        simp at this
      have hxne : l₀ ∉ pre := by
        intro hmem
        have := hpre l₀ hmem
        rw [this] at hl₀
        exact Bool.false_ne_true hl₀
      have herase : (strippedLines (some content)).erase l₀ = pre ++ post := by
        rw [hdecomp, List.erase_append_right _ hxne, List.erase_cons_head]
      have hrm : remove_plugin (some content) name = .ok (writeLines (pre ++ post)) := by
        simp only [remove_plugin]
        rw [hfind]
        show Except.ok (writeLines ((strippedLines (some content)).erase l₀)) = _
        rw [herase]
      have hwfL := strippedLines_wf (some content)
      have hsub : ∀ l ∈ pre ++ post, l ∈ strippedLines (some content) := by
        intro l hl
        rw [hdecomp]
        rcases List.mem_append.mp hl with h | h
        · exact List.mem_append.mpr (Or.inl h)
        · exact List.mem_append.mpr (Or.inr (List.mem_cons.mpr (Or.inr h)))
      have hwf : ∀ l ∈ pre ++ post, l ≠ [] ∧ strip l = l ∧ '\n' ∉ l :=
        fun l hl => hwfL l (hsub l hl)
      have hfil : (strippedLines (some content)).filter (fun l => lowerL l == lowerL name) =
          pre.filter (fun l => lowerL l == lowerL name) ++
            l₀ :: post.filter (fun l => lowerL l == lowerL name) := by
        rw [hdecomp, List.filter_append, List.filter_cons]
        simp [hl₀]
      have hprefil : pre.filter (fun l => lowerL l == lowerL name) = [] :=
        List.filter_eq_nil_iff.mpr (fun a ha hba => by
          rw [hpre a ha] at hba
          exact Bool.false_ne_true hba)
      have hpost : ∀ l ∈ post, lowerL l ≠ lowerL name := by
        rw [hfil, hprefil] at huniq
        simp only [List.nil_append, List.length_cons, Nat.add_left_eq_self] at huniq
        have hpostnil : post.filter (fun l => lowerL l == lowerL name) = [] :=
          List.length_eq_zero.mp huniq
        intro l hl hlow
        have := List.filter_eq_nil_iff.mp hpostnil l hl
        exact this (by simp [hlow])
      refine ⟨pre, post, l₀, hdecomp, hpre', by simpa using hl₀, hrm,
        strippedLines_writeLines _ hwf, ?_⟩
      intro l hl hlow
      rw [parse_linesC_writeLines _ hwf] at hl
      have hl2 : l ∈ pre ++ post := List.mem_of_mem_filter hl
      rcases List.mem_append.mp hl2 with h | h
      · exact hpre' l h hlow
      · exact hpost l h hlow

/-- C5 counterexample: on a manifest containing both `"X"` and `"x"`,
`remove(dir, "x")` removes the first case-insensitive match (`"X"`), and
the subsequent read still contains the requested name `"x"` — the claim
that the read no longer contains the name fails. -/
theorem c5_counterexample :
    remove_plugin (some ("X\nx".data)) ("x".data) = .ok ("x\n".data) ∧
    ("x".data) ∈ parse_linesC ("x\n".data) :=
  ⟨by rfl, by decide⟩

/-- Witness for C5 (amended): manifest `"X"`, removal of `"x"`. -/
theorem c5_remove_first_ci_match_witness :
    ∃ pre post l₀,
      strippedLines (some ("X".data)) = pre ++ l₀ :: post ∧
      (∀ l ∈ pre, lowerL l ≠ lowerL ("x".data)) ∧
      lowerL l₀ = lowerL ("x".data) ∧
      remove_plugin (some ("X".data)) ("x".data) = .ok (writeLines (pre ++ post)) ∧
      strippedLines (some (writeLines (pre ++ post))) = pre ++ post ∧
      (∀ l ∈ parse_linesC (writeLines (pre ++ post)), lowerL l ≠ lowerL ("x".data)) :=
  c5_remove_first_ci_match ("X".data) ("x".data) (by decide)

/-- Witness for C8 (amended): adding `"b"` to a manifest with a comment
and a plain line. -/
theorem c8_add_roundtrip_witness :
    add_plugin (some ("# note\na".data)) ("b".data) =
      some (writeLines (strippedLines (some ("# note\na".data)) ++ ["b".data])) ∧
    strippedLines (add_plugin (some ("# note\na".data)) ("b".data)) =
      strippedLines (some ("# note\na".data)) ++ ["b".data] ∧
    parse_linesC (writeLines (strippedLines (some ("# note\na".data)) ++ ["b".data])) =
      parse_linesC ("# note\na".data) ++ ["b".data] :=
  c8_add_roundtrip ("# note\na".data) ("b".data) (by decide) (by decide) (by decide)
    (by decide) (by decide)

/-! ## C1 (amended): conditions under which the Resolution Result is
duplicate-free -/

theorem unread_cons (d : Distribution) (reg' : Registry) (found : List String) (n : String) :
    unread (d :: reg') found n =
      (if d.name ∈ found then 0 else occ n (effEntries d)) + unread reg' found n := by
  simp [unread]

theorem unread_nil (found : List String) (n : String) : unread [] found n = 0 := rfl

theorem unread_mono (reg : Registry) (found : List String) (p n : String) :
    unread reg (found ++ [p]) n ≤ unread reg found n := by
  induction reg with
  | nil => simp [unread_nil]
  | cons d reg' ih =>
      rw [unread_cons, unread_cons]
      by_cases hd : d.name ∈ found
      · rw [if_pos hd, if_pos (List.mem_append.mpr (Or.inl hd))]
        omega
      · by_cases hd2 : d.name ∈ found ++ [p]
        · rw [if_neg hd, if_pos hd2]
          omega
        · rw [if_neg hd, if_neg hd2]
          omega

theorem unread_extract (reg : Registry) (found : List String) (p n : String)
    (dist : Distribution) (hmem : dist ∈ reg) (hname : dist.name = p) (hpnf : p ∉ found) :
    occ n (effEntries dist) + unread reg (found ++ [p]) n ≤ unread reg found n := by
  induction reg with
  | nil => simp at hmem
  | cons d reg' ih =>
      rw [unread_cons, unread_cons]
      rcases List.mem_cons.mp hmem with rfl | hmem2
      · rw [hname, if_neg hpnf, if_pos (List.mem_append.mpr (Or.inr (List.mem_cons_self p [])))]
        have := unread_mono reg' found p n
        omega
      · have hterm : (if d.name ∈ found ++ [p] then 0 else occ n (effEntries d)) ≤
            (if d.name ∈ found then 0 else occ n (effEntries d)) := by
          by_cases hd : d.name ∈ found
          · rw [if_pos hd, if_pos (List.mem_append.mpr (Or.inl hd))]
          · by_cases hd2 : d.name ∈ found ++ [p]
            · rw [if_neg hd, if_pos hd2]
              omega
            · rw [if_neg hd, if_neg hd2]
        have := ih hmem2
        omega

theorem unread_member_le (reg : Registry) (found : List String) (p n : String)
    (dist : Distribution) (hmem : dist ∈ reg) (hname : dist.name = p) (hpnf : p ∉ found) :
    occ n (effEntries dist) ≤ unread reg found n := by
  have h := unread_extract reg found p n dist hmem hname hpnf
  omega

theorem distribution_some (reg : Registry) (p : String) (dist : Distribution)
    (h : distribution_ reg p = some dist) : dist ∈ reg ∧ dist.name = p :=
  ⟨List.mem_of_find?_eq_some h, by simpa using List.find?_some h⟩

theorem resolveInv_step (reg : Registry) (rest found : List String) (p : String)
    (dist : Distribution) (hdist : distribution_ reg p = some dist)
    (hinv : ResolveInv reg (rest ++ [p]) found) :
    ResolveInv reg
      (rest ++ (effEntries dist).filter (fun x => !((found ++ [p]).contains x)))
      (found ++ [p]) := by
  obtain ⟨hfnd, hqnd, hdisj, hcnt⟩ := hinv
  obtain ⟨hmemreg, hname⟩ := distribution_some reg p dist hdist
  have hpq : p ∈ rest ++ [p] := List.mem_append.mpr (Or.inr (List.mem_cons_self p []))
  have hpnf : p ∉ found := hdisj p hpq
  have hrestnd : rest.Nodup := (List.nodup_append.mp hqnd).1
  have hrestd : ∀ x ∈ rest, x ≠ p := by
    have hd := (List.nodup_append.mp hqnd).2.2
    intro x hx hxp
    exact hd hx (by simp [hxp])
  refine ⟨?_, ?_, ?_, ?_⟩
  · rw [List.nodup_append]
    refine ⟨hfnd, List.nodup_singleton p, ?_⟩
    intro x hx hx2
    simp at hx2
    subst hx2
    exact hpnf hx
  · rw [List.nodup_append]
    refine ⟨hrestnd, ?_, ?_⟩
    · apply nodup_of_occ_le_one
      intro a
      have h1 : occ a ((effEntries dist).filter (fun x => !((found ++ [p]).contains x))) ≤
          occ a (effEntries dist) := occ_le_of_sublist (List.filter_sublist _) a
      have h2 : occ a (effEntries dist) ≤ unread reg found a :=
        unread_member_le reg found p a dist hmemreg hname hpnf
      have h3 := hcnt a
      omega
    · intro x hx hx2
      have hxeff : x ∈ effEntries dist := List.mem_of_mem_filter hx2
      have h1 : 1 ≤ occ x (rest ++ [p]) :=
        one_le_occ_of_mem (List.mem_append.mpr (Or.inl hx))
      have h2 : 1 ≤ occ x (effEntries dist) := one_le_occ_of_mem hxeff
      have h3 : occ x (effEntries dist) ≤ unread reg found x :=
        unread_member_le reg found p x dist hmemreg hname hpnf
      have h4 := hcnt x
      omega
  · intro x hx
    rcases List.mem_append.mp hx with hxr | hxp
    · intro hxm
      rcases List.mem_append.mp hxm with hxf | hxps
      · exact hdisj x (List.mem_append.mpr (Or.inl hxr)) hxf
      · simp at hxps
        exact hrestd x hxr hxps
    · have hflt := List.of_mem_filter hxp
      intro hxm
      have hnm : x ∉ found ++ [p] := by simpa using hflt
      exact hnm hxm
  · intro n
    have h1 : occ n ((effEntries dist).filter (fun x => !((found ++ [p]).contains x))) ≤
        occ n (effEntries dist) := occ_le_of_sublist (List.filter_sublist _) n
    have h2 : occ n (effEntries dist) + unread reg (found ++ [p]) n ≤ unread reg found n :=
      unread_extract reg found p n dist hmemreg hname hpnf
    have h3 := hcnt n
    rw [occ_append] at h3 ⊢
    omega

theorem resolveAux_nodup_of_inv (reg : Registry) :
    ∀ (fuel : Nat) (queue found result : List String),
      ResolveInv reg queue found →
      resolveAux reg queue fuel found = .ok result → result.Nodup := by
  intro fuel
  induction fuel with
  | zero =>
      intro queue found result hinv hres
      cases queue with
      | nil =>
          rw [resolveAux_nil] at hres
          injection hres with h
          subst h
          exact hinv.1
      | cons q₁ q => simp [resolveAux] at hres
  | succ f ih =>
      intro queue found result hinv hres
      rcases List.eq_nil_or_concat queue with rfl | ⟨rest, p, rfl⟩
      · rw [resolveAux_nil] at hres
        injection hres with h
        subst h
        exact hinv.1
      · rw [List.concat_eq_append] at hinv hres
        rw [resolveAux_step] at hres
        cases hdist : distribution_ reg p with
        | none =>
            rw [hdist] at hres
            simp at hres
        | some dist =>
            rw [hdist] at hres
            exact ih _ _ _ (resolveInv_step reg rest found p dist hdist hinv) hres

/-- C1 (amended): the resolver deduplicates only at push time — a
manifest entry already in `found` is never enqueued — and performs no
found-membership check on popped names and no pending-queue check.
Consequently the Resolution Result is guaranteed duplicate-free under
the condition that every name occurs at most once in total across the
initial list and all registered manifests (then no name can ever be
pending twice); without that condition duplicates are possible (see the
counterexample). -/
theorem c1_resolve_nodup (reg : Registry) (init : List String) (fuel : Nat)
    (result : List String)
    (hocc : ∀ n ∈ init ++ reg.flatMap (fun d => effEntries d),
      nameOccurrences reg init n ≤ 1)
    (hres : resolveAux reg init fuel [] = .ok result) :
    result.Nodup := by
  apply resolveAux_nodup_of_inv reg fuel init [] result ?_ hres
  have htotal : ∀ n, nameOccurrences reg init n ≤ 1 := by
    intro n
    by_cases hm : n ∈ init ++ reg.flatMap (fun d => effEntries d)
    · exact hocc n hm
    · have h1 : n ∉ init := fun h => hm (List.mem_append.mpr (Or.inl h))
      have h2 : ∀ d ∈ reg, occ n (effEntries d) = 0 := by
        intro d hd
        rw [occ_eq_zero_iff]
        intro hmem
        exact hm (List.mem_append.mpr (Or.inr (List.mem_flatMap.mpr ⟨d, hd, hmem⟩)))
      have h3 : occ n init = 0 := (occ_eq_zero_iff _ _).mpr h1
      have h4 : (reg.map (fun d => occ n (effEntries d))).sum = 0 :=
        List.sum_eq_zero (by
          intro x hx
          obtain ⟨d, hd, rfl⟩ := List.mem_map.mp hx
          exact h2 d hd)
      simp only [nameOccurrences]
      omega
  have hu : ∀ n, unread reg [] n = (reg.map (fun d => occ n (effEntries d))).sum := by
    intro n
    simp [unread]
  refine ⟨List.nodup_nil, ?_, by simp, ?_⟩
  · apply nodup_of_occ_le_one
    intro a
    have := htotal a
    simp only [nameOccurrences] at this
    omega
  · intro n
    have := htotal n
    simp only [nameOccurrences] at this
    rw [hu n]
    omega

/-- Witness for C1 (amended): the chain `A -> B` with a singleton
initial list satisfies the occurrence condition and resolves without
duplicates. -/
theorem c1_resolve_nodup_witness : (["A", "B"] : List String).Nodup :=
  c1_resolve_nodup regChain ["A"] 5 ["A", "B"] (by decide) (by rfl)
